import Mathlib

/- Verification development for packages/monaco/src/worker.ts.

   The file embeds two cooperating components of the worker:

   * the CDN declaration host (class CdnDtsHost): a lazy, memoizing cache of
     declaration-file texts fetched from a CDN, with a version-pin rewrite,
     a types-shim redundancy check and a drain-to-stable version counter;

   * the consistency proxy (class InnocentRabbit): the wrapper installed over
     every function-valued member of the language service, which re-executes
     an operation until the declaration-host version is stable across the
     execution, rebuilding the language-service instance when the version
     moved, and disposing superseded instances once no call is in flight.

   JavaScript strings are modelled as lists of characters (JStr); external
   collaborators (the network fetch, JSON.parse, the flat file-lister
   callback) are oracle parameters supplied in an environment record. -/

deriving instance DecidableEq for Except

namespace Volar

/-- JavaScript strings, modelled as lists of characters. -/
abbrev JStr := List Char

/-- Coerce a Lean string literal to the JStr model. -/
def str (s : String) : JStr := s.data

/-- JS String.prototype.split with a single-character separator. -/
def splitOnChar (c : Char) : JStr → List JStr
  | [] => [[]]
  | x :: xs =>
    if x = c then [] :: splitOnChar c xs
    else
      match splitOnChar c xs with
      | [] => [[x]]
      | h :: t => (x :: h) :: t

/-- JS String.prototype.replace with a string pattern: replaces the first
occurrence of pat only.  (The source only calls this when pat is nonempty.) -/
def replaceFirst (s pat rep : JStr) : JStr :=
  match s with
  | [] => []
  | c :: cs =>
    if pat.isPrefixOf (c :: cs) then rep ++ (c :: cs).drop pat.length
    else c :: replaceFirst cs pat rep

/-- JS String.prototype.indexOf(pat) >= 0: pat occurs somewhere in s. -/
def hasInfix (s pat : JStr) : Bool :=
  match s with
  | [] => pat.isEmpty
  | c :: cs => pat.isPrefixOf (c :: cs) || hasInfix cs pat

/-- Truthiness of a (string or undefined) JS value: undefined and the empty
string are falsy. -/
def truthy : Option JStr → Bool
  | none => false
  | some s => !s.isEmpty

/-- Key lookup in an association list (the memoization maps of CdnDtsHost). -/
def lookupKey {α : Type} (k : JStr) : List (JStr × α) → Option α
  | [] => none
  | (k', v) :: rest => if k' = k then some v else lookupKey k rest

/-- JS Map.prototype.set: overwrite the value at an existing key in place,
otherwise append the binding (insertion order is preserved). -/
def upsert {α : Type} (k : JStr) (v : α) : List (JStr × α) → List (JStr × α)
  | [] => [(k, v)]
  | (k', v') :: rest => if k' = k then (k, v) :: rest else (k', v') :: upsert k v rest

/-- Result of the truthiness test on a manifest object's types / typings
fields, as produced by JSON.parse on a package.json text. -/
structure Manifest where
  types : Bool
  typings : Bool
deriving DecidableEq

/-- The outcome of one CdnDtsHost.fetchFile resolution: a thrown JS exception
(Except.error, raised only by JSON.parse on malformed manifest content), or a
settled value (some text, or none for an absent file). -/
abbrev FetchResult := Except Unit (Option JStr)

/-- The constructor arguments of CdnDtsHost together with its external
collaborators: cdn is the base URL, versions the static version-pin map in
entry order, flat the optional package file-lister callback, fetchText the
network fetch (any failure already mapped to none by fetchText's catch), and
parseJson the JSON.parse oracle (none models a thrown SyntaxError). -/
structure DtsEnv where
  cdn : JStr
  versions : List (JStr × JStr)
  flat : Option (JStr → Option JStr → List JStr)
  fetchText : JStr → Option JStr
  parseJson : JStr → Option Manifest

/-- The mutable state of a CdnDtsHost: the files map (each entry holding the
eventual outcome of the promise stored for that path), the memoized flat
results per package, and an instrumentation log of the URLs passed to
fetchText. -/
structure DtsSt where
  files : List (JStr × FetchResult)
  flatResult : List (JStr × List JStr)
  fetchLog : List JStr
deriving DecidableEq

/-- The guard at the head of CdnDtsHost.readFile: the path is under
/node_modules/ and ends in .d.ts or /package.json. -/
def isDtsRequest (fileName : JStr) : Bool :=
  (str "/node_modules/").isPrefixOf fileName &&
    ((str ".d.ts").isSuffixOf fileName || (str "/package.json").isSuffixOf fileName)

/-- Package-name derivation at the top of CdnDtsHost.fetchFile:
fileName.split('/')[2], extended by '/' + split('/')[3] for scoped packages.
A missing index-3 segment concatenates as the JS string "undefined". -/
def pkgNameOf (fileName : JStr) : JStr :=
  let parts := splitOnChar '/' fileName
  let p := (parts.get? 2).getD []
  if p.head? = some '@' then p ++ '/' :: ((parts.get? 3).getD (str "undefined")) else p

/-- The original-package derivation of the types-shim redundancy check:
strip the leading "@types/", and when the remainder contains "__" unescape
the first occurrence to "/" and restore the leading "@" of the scope. -/
def origPkgOf (pkg : JStr) : JStr :=
  let o := pkg.drop (str "@types/").length
  if hasInfix o (str "__") then '@' :: replaceFirst o (str "__") (str "/") else o

/-- CdnDtsHost.resolveRequestFileName: the first version-pin entry whose
package-directory prefix matches the path rewrites pkg to pkg@version (the
startsWith guard makes the replaced first occurrence the prefix itself). -/
def resolveRequestFileName : List (JStr × JStr) → JStr → JStr
  | [], fileName => fileName
  | (key, ver) :: rest, fileName =>
    if (str "/node_modules/" ++ key ++ str "/").isPrefixOf fileName then
      replaceFirst fileName (str "/node_modules/" ++ key ++ str "/")
        (str "/node_modules/" ++ key ++ str "@" ++ ver ++ str "/")
    else resolveRequestFileName rest fileName

/-- The request URL built at the end of CdnDtsHost.fetchFile: the cdn base
followed by the pin-rewritten path with its "/node_modules/" prefix sliced
off. -/
def requestUrl (env : DtsEnv) (fileName : JStr) : JStr :=
  env.cdn ++ (resolveRequestFileName env.versions fileName).drop (str "/node_modules/").length

/-- The final fetch step of CdnDtsHost.fetchFile: build the request URL and
fetch it, recording the URL in the instrumentation log. -/
def doFetch (env : DtsEnv) (fileName : JStr) (st : DtsSt) : FetchResult × DtsSt :=
  (.ok (env.fetchText (requestUrl env fileName)),
   { st with fetchLog := st.fetchLog ++ [requestUrl env fileName] })

/-- The flat-listing gate of CdnDtsHost.fetchFile: memoize the flat callback
result for the package, skip the fetch (resolve absent) when the relative
path is not listed, otherwise fetch. -/
def flatGate (env : DtsEnv) (flatFn : JStr → Option JStr → List JStr)
    (fileName pkgName : JStr) (st : DtsSt) : FetchResult × DtsSt :=
  let (fl, st₁) :=
    match lookupKey pkgName st.flatResult with
    | some fl => (fl, st)
    | none =>
      let fl := flatFn pkgName (lookupKey pkgName env.versions)
      (fl, { st with flatResult := st.flatResult ++ [(pkgName, fl)] })
  if fl.contains (fileName.drop ((str "/node_modules/").length + pkgName.length)) then
    doFetch env fileName st₁
  else (.ok none, st₁)

/-- The memoization wrapper CdnDtsHost.readFile, parameterized by the fetch
routine: irrelevant paths resolve undefined without touching the map; a miss
runs the fetch and stores its outcome under the path; a hit returns the
stored outcome. -/
def readMemo (doFetchFile : JStr → DtsSt → FetchResult × DtsSt)
    (fileName : JStr) (st : DtsSt) : FetchResult × DtsSt :=
  if isDtsRequest fileName then
    match lookupKey fileName st.files with
    | some r => (r, st)
    | none =>
      let (r, st₁) := doFetchFile fileName st
      (r, { st₁ with files := upsert fileName r st₁.files })
  else (.ok none, st)

/-- CdnDtsHost.fetchFile.  With a flat lister configured: derive the package
name; resolve absent for degenerate or hardcoded-invalid names; for a
types-shim package, read the original package's manifest (a rejected inner
promise re-throws through the await) and resolve absent when it declares
types or typings or when the original ships a top-level index.d.ts
(JSON.parse on malformed manifest content throws, modelled as Except.error);
otherwise gate on the flat listing and fetch.  Without a flat lister the
fetch is unconditional.  The fuel argument bounds the recursion through the
shim chain; it is threaded so that the inner reads of an (m+1)-fuel call run
at fuel m, and a 0-fuel call (never reached from the theorems below) throws. -/
def fetchFile (env : DtsEnv) : Nat → JStr → DtsSt → FetchResult × DtsSt
  | 0, _, st => (.error (), st)
  | m + 1, fileName, st =>
    match env.flat with
    | none => doFetch env fileName st
    | some flatFn =>
      let pkgName := pkgNameOf fileName
      if (str ".d.ts").isSuffixOf pkgName || (str "/node_modules").isSuffixOf pkgName then
        (.ok none, st)
      else if (str "@typescript/").isPrefixOf pkgName
          || (str "@types/typescript__").isPrefixOf pkgName then
        (.ok none, st)
      else if (str "@types/").isPrefixOf pkgName then
        let orig := origPkgOf pkgName
        let pj := readMemo (fetchFile env m)
          (str "/node_modules/" ++ orig ++ str "/package.json") st
        match pj.1 with
        | .error e => (.error e, pj.2)
        | .ok content =>
          if truthy content then
            match env.parseJson (content.getD []) with
            | none => (.error (), pj.2)
            | some man =>
              if man.types || man.typings then (.ok none, pj.2)
              else
                let idx := readMemo (fetchFile env m)
                  (str "/node_modules/" ++ orig ++ str "/index.d.ts") pj.2
                match idx.1 with
                | .error e => (.error e, idx.2)
                | .ok idxContent =>
                  if truthy idxContent then (.ok none, idx.2)
                  else flatGate env flatFn fileName pkgName idx.2
          else flatGate env flatFn fileName pkgName pj.2
      else flatGate env flatFn fileName pkgName st

/-- CdnDtsHost.readFile at a given fuel. -/
def readFile (env : DtsEnv) (fuel : Nat) : JStr → DtsSt → FetchResult × DtsSt :=
  readMemo (fetchFile env fuel)

/- CdnDtsHost.getVersion drains the files map until its size stops moving and
returns the size.  For this loop only the entries' settledness matters, so
the files map is abstracted to its per-entry settled flags (true = the stored
promise has reached a terminal state), in insertion order.  Each pass of
`await Promise.all(this.files.values())` is an oracle step supplying the
files list as it stands when that await resolves: the step settles every
entry present at capture time and may append entries registered meanwhile. -/

/-- One drain transition is admissible when the files map only grew and every
entry present before the await is settled after it. -/
def StepOK (files s : List Bool) : Prop :=
  files.length ≤ s.length ∧ ∀ b ∈ s.take files.length, b = true

/-- Admissibility of a whole sequence of drain transitions. -/
def ChainOK : List Bool → List (List Bool) → Prop
  | _, [] => True
  | files, s :: rest => StepOK files s ∧ ChainOK s rest

/-- The loop body of CdnDtsHost.getVersion: while files.size differs from
lastUpdateFilesSize, capture the size, await all current entries (consume one
oracle step), raise lastUpdateFilesSize to the captured size if larger, and
re-check; on exit return files.size.  The result also carries the final
lastUpdateFilesSize and files state; none means the supplied steps ran out
before the loop exited. -/
def getVersionLoop : List (List Bool) → Nat → List Bool → Option (Nat × Nat × List Bool)
  | steps, last, files =>
    if files.length = last then some (files.length, last, files)
    else
      match steps with
      | [] => none
      | s :: rest =>
        let n := files.length
        getVersionLoop rest (if n > last then n else last) s

/- The consistency proxy (class InnocentRabbit), per-call view.  The body of
one wrapped operation is a deterministic function of the shared proxy state
as seen by this call and of the values produced at its await points: the
successive results of dtsHost.getVersion (vs) and the successive outcomes of
the underlying language-service operation (ops).  Language-service instances
are identified by the order of their creation: the instance current at call
start has some id, and each _createLanguageService call yields id nextId. -/

/-- The shared mutable state of the proxy closed over by every wrapped
operation: the last version an instance was built for (dtsVersion), the id
of the current languageService, the next fresh instance id, the
pending-disposal set toClear, and the in-flight counter runningApis. -/
structure ProxySt where
  dtsVersion : Nat
  current : Nat
  nextId : Nat
  toClear : List Nat
  runningApis : Nat
deriving DecidableEq

/-- Instrumentation record of one wrapped call: every execution of the
underlying operation (the id of the instance it ran against and its
outcome), every version value read, the ids disposed as the call returned,
and the value the call settles with. -/
structure CallLog (ε α : Type) where
  execs : List (Nat × Except ε α)
  vreads : List Nat
  disposed : List Nat
  result : Except ε α
deriving DecidableEq

/-- Add the current instance to the pending-disposal set (Set.prototype.add:
no duplicate is created when it is already a member). -/
def addToClear (toClear : List Nat) (c : Nat) : List Nat :=
  if c ∈ toClear then toClear else toClear ++ [c]

/-- The retry loop of the wrapped operation, lines 64-82: given the state,
the previously observed version oldV and the newly read version newV, exit
when they agree (running the finally decrement and then the disposal block),
otherwise advance oldVersion, rebuild the instance iff newV differs from the
shared dtsVersion, re-execute against the now-current instance and re-read
the version.  An operation outcome of Except.error propagates out through
the finally decrement, skipping both the loop and the disposal block. -/
def loopGo {ε α : Type} (st : ProxySt) (oldV newV : Nat) (res : α)
    (execs : List (Nat × Except ε α)) (vreads : List Nat) :
    List Nat → List (Except ε α) → Option (CallLog ε α × ProxySt)
  | vs, ops =>
    if newV = oldV then
      let st₁ := { st with runningApis := st.runningApis - 1 }
      let (st₂, disposed) :=
        if st₁.runningApis = 0 ∧ st₁.toClear ≠ [] then
          ({ st₁ with toClear := [] }, st₁.toClear)
        else (st₁, [])
      some ({ execs := execs, vreads := vreads, disposed := disposed, result := .ok res }, st₂)
    else
      let st₁ :=
        if newV ≠ st.dtsVersion then
          { st with dtsVersion := newV, toClear := addToClear st.toClear st.current,
                    current := st.nextId, nextId := st.nextId + 1 }
        else st
      match ops with
      | [] => none
      | o :: ops' =>
        match o with
        | .error e =>
          some ({ execs := execs ++ [(st₁.current, o)], vreads := vreads,
                  disposed := [], result := .error e },
                { st₁ with runningApis := st₁.runningApis - 1 })
        | .ok r =>
          match vs with
          | [] => none
          | v :: vs' =>
            loopGo st₁ newV v r (execs ++ [(st₁.current, o)]) (vreads ++ [v]) vs' ops'

/-- One wrapped call with a declaration host present, lines 56-95: increment
runningApis, read oldVersion, execute the operation against the current
instance (an error exits through the finally decrement, skipping the
disposal block), read newVersion and enter the retry loop.  none means the
oracle streams ran out before the loop exited. -/
def runCall {ε α : Type} (st₀ : ProxySt) (vs : List Nat) (ops : List (Except ε α)) :
    Option (CallLog ε α × ProxySt) :=
  let st := { st₀ with runningApis := st₀.runningApis + 1 }
  match vs with
  | [] => none
  | v₀ :: vs₁ =>
    match ops with
    | [] => none
    | o₁ :: ops₁ =>
      match o₁ with
      | .error e =>
        some ({ execs := [(st.current, o₁)], vreads := [v₀], disposed := [], result := .error e },
              { st with runningApis := st.runningApis - 1 })
      | .ok r =>
        match vs₁ with
        | [] => none
        | v₁ :: vs₂ =>
          loopGo st v₀ v₁ r [(st.current, o₁)] [v₀, v₁] vs₂ ops₁

/-- A wrapped operation as installed on InnocentRabbit.prototype: when the
proxy was constructed without a dtsHost (line 52), the underlying operation
is invoked once and its outcome returned unchanged, with no version read, no
rebuild and no disposal; otherwise the retry-loop body runs. -/
def wrappedCall {ε α : Type} (hasDtsHost : Bool) (st₀ : ProxySt)
    (vs : List Nat) (ops : List (Except ε α)) : Option (CallLog ε α × ProxySt) :=
  if hasDtsHost then runCall st₀ vs ops
  else
    match ops with
    | [] => none
    | o :: _ =>
      some ({ execs := [(st₀.current, o)], vreads := [], disposed := [], result := o }, st₀)

/- Interleaved-trace view of the proxy.  Wrapped calls suspend at their await
points (the two getVersion reads and the operation execution); between
suspension points a call's code runs atomically on the shared state, exactly
as in the single-threaded JS event loop.  A trace is a list of scheduler
choices: spawn a call, start a spawned call's body, deliver a settled await.
Declaration resolutions (fetch completions that settle a new cache entry and
hence grow the world version) are their own trace events, so the version a
getVersion read delivers is the count of declarations resolved so far.
Engine instances are numbered in creation order; instance 0 is created at
proxy construction (time 0) and each rebuild creates instance nextId at the
time of the rebuild.  Every step advances a logical clock by one. -/

/-- The suspension point a wrapped call currently sits at.  startTime is the
clock value at which the call body began; oldV the version observed before
the pending execution; the engine argument records which instance the
pending or finished execution ran against. -/
inductive Phase where
  | ready : Phase
  | awaitV0 : Nat → Phase
  | awaitOp : Nat → Nat → Nat → Phase
  | awaitV1 : Nat → Nat → Nat → Phase
  | finished : Nat → Option Nat → Phase
deriving DecidableEq

/-- One scheduler choice: create a call, start a created call's body, let a
pending fetch settle a declaration (bumping the world version), deliver a
pending getVersion result, or deliver a pending operation outcome. -/
inductive Choice where
  | spawn : Choice
  | declResolve : Choice
  | startCall : Nat → Choice
  | resumeVersion : Nat → Choice
  | resumeOp : Nat → Except Nat Nat → Choice
deriving DecidableEq

/-- The shared state of the façade in the trace view: the declaration-host
world version, the proxy variables dtsVersion / current instance / toClear /
runningApis, the per-call phases, the logical clock, the creation time of
every engine instance, the times of declaration resolutions, and the
disposal log (instance id, runningApis at disposal, current instance at
disposal). -/
structure Config where
  version : Nat
  dtsVersion : Nat
  current : Nat
  nextId : Nat
  toClear : List Nat
  runningApis : Nat
  threads : List Phase
  time : Nat
  builds : List (Nat × Nat)
  decls : List Nat
  disposeLog : List (Nat × Nat × Nat)
deriving DecidableEq

/-- One atomic block of the façade, scheduled by a choice.  A resumeVersion
delivered to a call waiting on its second read runs the loop check of lines
64-82: on a stable version the finally decrement and the disposal block of
lines 84-93 run; on a moved version the instance is rebuilt iff the version
differs from dtsVersion, and the operation is re-issued against the current
instance.  A resumeOp delivering an error runs the finally decrement and
finishes the call, skipping the disposal block.  Choices that do not match a
pending suspension leave the state unchanged (only the clock advances). -/
def stepCore (cfg : Config) (c : Choice) : Config :=
  let t := cfg.time
  match c with
    | .spawn => { cfg with threads := cfg.threads ++ [Phase.ready] }
    | .declResolve => { cfg with version := cfg.version + 1, decls := cfg.decls ++ [t] }
    | .startCall tid =>
      match cfg.threads.get? tid with
      | some Phase.ready =>
        { cfg with runningApis := cfg.runningApis + 1,
                   threads := cfg.threads.set tid (Phase.awaitV0 t) }
      | _ => cfg
    | .resumeVersion tid =>
      match cfg.threads.get? tid with
      | some (Phase.awaitV0 s) =>
        { cfg with threads := cfg.threads.set tid (Phase.awaitOp s cfg.version cfg.current) }
      | some (Phase.awaitV1 s oldV e) =>
        if cfg.version = oldV then
          if cfg.runningApis - 1 = 0 ∧ cfg.toClear ≠ [] then
            { cfg with runningApis := cfg.runningApis - 1,
                       threads := cfg.threads.set tid (Phase.finished s (some e)),
                       disposeLog := cfg.disposeLog ++
                         cfg.toClear.map (fun i => (i, cfg.runningApis - 1, cfg.current)),
                       toClear := [] }
          else
            { cfg with runningApis := cfg.runningApis - 1,
                       threads := cfg.threads.set tid (Phase.finished s (some e)) }
        else
          if cfg.version ≠ cfg.dtsVersion then
            { cfg with dtsVersion := cfg.version,
                       toClear := addToClear cfg.toClear cfg.current,
                       builds := cfg.builds ++ [(cfg.nextId, t)],
                       current := cfg.nextId,
                       nextId := cfg.nextId + 1,
                       threads := cfg.threads.set tid (Phase.awaitOp s cfg.version cfg.nextId) }
          else
            { cfg with threads := cfg.threads.set tid (Phase.awaitOp s cfg.version cfg.current) }
      | _ => cfg
    | .resumeOp tid outcome =>
      match cfg.threads.get? tid with
      | some (Phase.awaitOp s oldV e) =>
        match outcome with
        | .ok _ => { cfg with threads := cfg.threads.set tid (Phase.awaitV1 s oldV e) }
        | .error _ =>
          { cfg with runningApis := cfg.runningApis - 1,
                     threads := cfg.threads.set tid (Phase.finished s none) }
      | _ => cfg

/-- One scheduled step: the atomic block, then the logical clock advances. -/
def stepFn (cfg : Config) (c : Choice) : Config :=
  { stepCore cfg c with time := cfg.time + 1 }

/-- The façade state at proxy construction: no declarations resolved, one
engine instance (id 0, built at time 0) current, nothing pending disposal,
no call in flight. -/
def initConfig : Config :=
  { version := 0, dtsVersion := 0, current := 0, nextId := 1, toClear := [],
    runningApis := 0, threads := [], time := 1, builds := [(0, 0)], decls := [],
    disposeLog := [] }

/-- Run a trace of scheduler choices from the initial façade state. -/
def runTrace (trace : List Choice) : Config :=
  trace.foldl stepFn initConfig

/-- Build-time lookup for an engine instance id. -/
def buildTimeOf (e : Nat) : List (Nat × Nat) → Option Nat
  | [] => none
  | (i, b) :: rest => if i = e then some b else buildTimeOf e rest

/-- A finished call whose result was computed against an engine instance
built before some declaration that resolved strictly before the call began. -/
def staleFinishedCall (cfg : Config) : Bool :=
  cfg.threads.any fun th =>
    match th with
    | Phase.finished s (some e) =>
      cfg.decls.any fun d =>
        decide (d < s) &&
          (match buildTimeOf e cfg.builds with
           | some b => decide (b < d)
           | none => false)
    | _ => false

/- Helper lemmas. -/

theorem lookupKey_upsert {α : Type} (k : JStr) (v : α) (l : List (JStr × α)) :
    lookupKey k (upsert k v l) = some v := by
  induction l with
  | nil => simp [upsert, lookupKey]
  | cons hd tl ih =>
    obtain ⟨k', v'⟩ := hd
    by_cases h : k' = k
    · simp [upsert, h, lookupKey]
    · simp [upsert, h, lookupKey, ih]

theorem isPrefixOf_append (a b : JStr) : a.isPrefixOf (a ++ b) = true := by
  induction a with
  | nil => simp [List.isPrefixOf]
  | cons c a ih => simp [List.isPrefixOf, ih]

theorem replaceFirst_pre (a b rep : JStr) (h : a ≠ []) :
    replaceFirst (a ++ b) a rep = rep ++ b := by
  match a, h with
  | c :: a', _ =>
    show replaceFirst (c :: (a' ++ b)) (c :: a') rep = rep ++ b
    rw [replaceFirst]
    have hp : (c :: a').isPrefixOf (c :: a' ++ b) = true := isPrefixOf_append _ _
    simp only [List.cons_append] at hp
    simp [hp]

/-- C7. For every path, a second read issued before or after the first
settles observes the very outcome of the first read, with the cache state
(and hence the fetch log) unchanged: the first call registers the entry and
every subsequent call returns the memoized entry, so at most one fetch is
performed for that path.  The second read is quantified over an arbitrary
fuel to stress that it never re-enters the fetch routine. -/
theorem claim_C7 (env : DtsEnv) (fuel fuel₂ : Nat) (p : JStr) (st : DtsSt) :
    readFile env fuel₂ p (readFile env fuel p st).2 = readFile env fuel p st ∧
    (isDtsRequest p = true →
      lookupKey p (readFile env fuel p st).2.files = some (readFile env fuel p st).1) := by
  by_cases hreq : isDtsRequest p = true
  · cases hl : lookupKey p st.files with
    | some r =>
      simp [readFile, readMemo, hreq, hl]
    | none =>
      cases hfe : fetchFile env fuel p st with
      | mk r st₁ =>
        simp [readFile, readMemo, hreq, hl, hfe, lookupKey_upsert]
  · simp at hreq
    simp [readFile, readMemo, hreq]

/-- A concrete host environment for witnesses: a jsDelivr-like CDN with a
flat lister that reports package.json and index.d.ts for every package, a
fetch that succeeds on lodash paths, and a JSON parse that reads every
manifest as declaring no types. -/
def claim_C7_witness_env : DtsEnv where
  cdn := str "https://cdn.jsdelivr.net/npm/"
  versions := [(str "lodash", str "4.17.21")]
  flat := some (fun _ _ => [str "/package.json", str "/index.d.ts"])
  fetchText := fun u =>
    if u = str "https://cdn.jsdelivr.net/npm/lodash@4.17.21/index.d.ts" then
      some (str "export declare const x: number;")
    else if u = str "https://cdn.jsdelivr.net/npm/lodash@4.17.21/package.json" then
      some (str "misc")
    else none
  parseJson := fun _ => some ⟨false, false⟩

/-- C7 witness: a concrete host where the first read of a pinned lodash
declaration file performs the fetch and registers the entry, and a second
read returns the memoized outcome with the state unchanged. -/
theorem claim_C7_witness :
    (readFile claim_C7_witness_env 2 (str "/node_modules/lodash/index.d.ts")
        (readFile claim_C7_witness_env 3 (str "/node_modules/lodash/index.d.ts") ⟨[], [], []⟩).2 =
      readFile claim_C7_witness_env 3 (str "/node_modules/lodash/index.d.ts") ⟨[], [], []⟩) ∧
    lookupKey (str "/node_modules/lodash/index.d.ts")
        (readFile claim_C7_witness_env 3 (str "/node_modules/lodash/index.d.ts") ⟨[], [], []⟩).2.files =
      some (readFile claim_C7_witness_env 3 (str "/node_modules/lodash/index.d.ts") ⟨[], [], []⟩).1 :=
  ⟨(claim_C7 claim_C7_witness_env 3 2 _ _).1,
   (claim_C7 claim_C7_witness_env 3 2 _ _).2 (by decide)⟩

theorem resolve_pin (pre post : List (JStr × JStr)) (pkg ver rest : JStr)
    (hnm : ∀ e ∈ pre,
      ((str "/node_modules/" ++ e.1 ++ str "/").isPrefixOf
        (str "/node_modules/" ++ pkg ++ str "/" ++ rest)) = false) :
    resolveRequestFileName (pre ++ (pkg, ver) :: post)
        (str "/node_modules/" ++ pkg ++ str "/" ++ rest) =
      (str "/node_modules/" ++ pkg ++ str "@" ++ ver ++ str "/") ++ rest := by
  induction pre with
  | nil =>
    simp only [List.nil_append]
    have hp : (str "/node_modules/" ++ pkg ++ str "/").isPrefixOf
        (str "/node_modules/" ++ pkg ++ str "/" ++ rest) = true := by
      have h := isPrefixOf_append (str "/node_modules/" ++ pkg ++ str "/") rest
      rw [List.append_assoc] at h
      exact h
    have hr : replaceFirst (str "/node_modules/" ++ pkg ++ str "/" ++ rest)
        (str "/node_modules/" ++ pkg ++ str "/")
        (str "/node_modules/" ++ pkg ++ str "@" ++ ver ++ str "/") =
        (str "/node_modules/" ++ pkg ++ str "@" ++ ver ++ str "/") ++ rest := by
      have h := replaceFirst_pre (str "/node_modules/" ++ pkg ++ str "/") rest
        (str "/node_modules/" ++ pkg ++ str "@" ++ ver ++ str "/") (by simp [str])
      simp only [List.append_assoc] at h ⊢
      exact h
    rw [resolveRequestFileName, hp, if_pos rfl, hr]
  | cons e pre ih =>
    obtain ⟨k, v⟩ := e
    simp only [List.cons_append]
    rw [resolveRequestFileName, hnm (k, v) (by simp), if_neg (by simp)]
    exact ih (fun e' he' => hnm e' (by simp [he']))

/-- C9. When the version-pin map holds an entry for a package and no earlier
entry matches the path, a read of a path under that package builds its
request URL with the package path segment rewritten from the bare name to
name@pinnedVersion. -/
theorem claim_C9 (env : DtsEnv) (pre post : List (JStr × JStr)) (pkg ver rest : JStr)
    (hver : env.versions = pre ++ (pkg, ver) :: post)
    (hnm : ∀ e ∈ pre,
      ((str "/node_modules/" ++ e.1 ++ str "/").isPrefixOf
        (str "/node_modules/" ++ pkg ++ str "/" ++ rest)) = false) :
    requestUrl env (str "/node_modules/" ++ pkg ++ str "/" ++ rest) =
      env.cdn ++ pkg ++ str "@" ++ ver ++ str "/" ++ rest := by
  rw [requestUrl, hver, resolve_pin pre post pkg ver rest hnm]
  have hd : ((str "/node_modules/" ++ pkg ++ str "@" ++ ver ++ str "/") ++ rest).drop
      (str "/node_modules/").length =
      pkg ++ str "@" ++ ver ++ str "/" ++ rest := by
    have h := List.drop_left (str "/node_modules/")
      (pkg ++ (str "@" ++ (ver ++ (str "/" ++ rest))))
    simp only [List.append_assoc] at h ⊢
    exact h
  rw [hd]
  simp [List.append_assoc]

/-- C9 witness: with the pin map containing lodash at 4.17.21, the request
URL for /node_modules/lodash/package.json is the cdn base followed by
lodash@4.17.21/package.json. -/
theorem claim_C9_witness :
    requestUrl claim_C7_witness_env
      (str "/node_modules/" ++ str "lodash" ++ str "/" ++ str "package.json") =
      claim_C7_witness_env.cdn ++ str "lodash" ++ str "@" ++ str "4.17.21" ++
        str "/" ++ str "package.json" :=
  claim_C9 claim_C7_witness_env [] [] (str "lodash") (str "4.17.21")
    (str "package.json") rfl (by simp)

theorem readFile_as_memo (env : DtsEnv) (fuel : Nat) (p : JStr) (st : DtsSt) :
    readMemo (fetchFile env fuel) p st = readFile env fuel p st := rfl

theorem isEmpty_false_of_ne {s : JStr} (h : s ≠ []) : s.isEmpty = false := by
  cases s with
  | nil => exact absurd rfl h
  | cons c cs => rfl

/-- C6. For a types-shim package read on a flat-configured host, when the
inner read of the original package's manifest yields truthy content that
parses with a truthy types or typings field, or when the manifest lacks both
and the inner read of the original's top-level index.d.ts yields truthy
content, the shim file resolves absent and the fetch log after the call is
exactly the log of the inner original-package reads: no fetch is issued to
the shim's own CDN path. -/
theorem claim_C6 (env : DtsEnv) (fl : JStr → Option JStr → List JStr) (k : Nat)
    (st st₁ st₂ : DtsSt) (fileName s t : JStr) (m : Manifest)
    (hflat : env.flat = some fl)
    (hvalid : isDtsRequest fileName = true)
    (hmiss : lookupKey fileName st.files = none)
    (hd1 : (str ".d.ts").isSuffixOf (pkgNameOf fileName) = false)
    (hd2 : (str "/node_modules").isSuffixOf (pkgNameOf fileName) = false)
    (hx1 : (str "@typescript/").isPrefixOf (pkgNameOf fileName) = false)
    (hx2 : (str "@types/typescript__").isPrefixOf (pkgNameOf fileName) = false)
    (hts : (str "@types/").isPrefixOf (pkgNameOf fileName) = true)
    (hread : readFile env k
      (str "/node_modules/" ++ origPkgOf (pkgNameOf fileName) ++ str "/package.json") st =
      (.ok (some s), st₁))
    (hs : s ≠ [])
    (hparse : env.parseJson s = some m)
    (hcase : (m.types || m.typings) = true ∨
      ((m.types || m.typings) = false ∧
        readFile env k
          (str "/node_modules/" ++ origPkgOf (pkgNameOf fileName) ++ str "/index.d.ts") st₁ =
          (.ok (some t), st₂) ∧ t ≠ [])) :
    (readFile env (k + 1) fileName st).1 = .ok none ∧
    ((readFile env (k + 1) fileName st).2.fetchLog = st₁.fetchLog ∨
      (readFile env (k + 1) fileName st).2.fetchLog = st₂.fetchLog) := by
  have hfetch : fetchFile env (k + 1) fileName st =
      (if (m.types || m.typings) = true then (.ok none, st₁) else (.ok none, st₂)) := by
    rw [fetchFile, hflat]
    simp only [hd1, hd2, hx1, hx2, hts, Bool.or_self, Bool.false_or, if_neg, if_pos,
      Bool.false_eq_true, reduceIte]
    rw [readFile_as_memo, hread]
    simp only [truthy, isEmpty_false_of_ne hs, Bool.not_false, if_pos, Option.getD_some]
    rw [hparse]
    rcases hcase with h | ⟨hff, hidx, ht⟩
    · simp [h]
    · rw [hff]
      simp only [Bool.false_eq_true, reduceIte]
      rw [readFile_as_memo, hidx]
      simp [truthy, isEmpty_false_of_ne ht, hff]
  have hmain : readFile env (k + 1) fileName st =
      (if (m.types || m.typings) = true
        then (.ok none, { st₁ with files := upsert fileName (.ok none) st₁.files })
        else (.ok none, { st₂ with files := upsert fileName (.ok none) st₂.files })) := by
    rw [← readFile_as_memo, readMemo]
    simp only [hvalid, if_pos, hmiss]
    rw [hfetch]
    by_cases hm : (m.types || m.typings) = true
    · simp [hm]
    · simp [hm]
  rw [hmain]
  by_cases hm : (m.types || m.typings) = true
  · simp [hm]
  · simp [hm]

/-- A host whose CDN serves a manifest for package foo that declares a types
field ("\x7b \"types\": \"x.d.ts\" \x7d" parses to an object with a truthy
types member and no typings member). -/
def typesShimEnv : DtsEnv where
  cdn := str "https://cdn.example/"
  versions := []
  flat := some (fun _ _ => [str "/package.json", str "/index.d.ts"])
  fetchText := fun u =>
    if u = str "https://cdn.example/foo/package.json" then
      some (str "\x7b \"types\": \"x.d.ts\" \x7d")
    else none
  parseJson := fun s =>
    if s = str "\x7b \"types\": \"x.d.ts\" \x7d" then some ⟨true, false⟩ else none

/-- C6 witness: with foo's manifest declaring a types field, the read of
/node_modules/@types/foo/index.d.ts resolves absent and the fetch log is
exactly that of the inner read of foo's manifest — the shim's own CDN path
is never fetched. -/
theorem claim_C6_witness :
    (readFile typesShimEnv 2 (str "/node_modules/@types/foo/index.d.ts") ⟨[], [], []⟩).1 =
      Except.ok none ∧
    ((readFile typesShimEnv 2 (str "/node_modules/@types/foo/index.d.ts") ⟨[], [], []⟩).2.fetchLog =
        (readFile typesShimEnv 1 (str "/node_modules/foo/package.json") ⟨[], [], []⟩).2.fetchLog ∨
      (readFile typesShimEnv 2 (str "/node_modules/@types/foo/index.d.ts") ⟨[], [], []⟩).2.fetchLog =
        (readFile typesShimEnv 1 (str "/node_modules/foo/package.json") ⟨[], [], []⟩).2.fetchLog) :=
  claim_C6 typesShimEnv (fun _ _ => [str "/package.json", str "/index.d.ts"]) 1
    ⟨[], [], []⟩
    (readFile typesShimEnv 1 (str "/node_modules/foo/package.json") ⟨[], [], []⟩).2
    (readFile typesShimEnv 1 (str "/node_modules/foo/package.json") ⟨[], [], []⟩).2
    (str "/node_modules/@types/foo/index.d.ts")
    (str "\x7b \"types\": \"x.d.ts\" \x7d") []
    ⟨true, false⟩ rfl (by decide) (by decide) (by decide) (by decide) (by decide)
    (by decide) (by decide) (by decide) (by decide) rfl (Or.inl rfl)

/-- C5 amended theorem: when the manifest read during the types-shim
redundancy check yields truthy content on which JSON.parse throws (the parse
oracle returns none), the shim file's resolution rejects with that error —
stored as the entry's outcome and propagated to the reader — and no fetch of
the shim's own CDN path is performed.  The parse failure is not converted to
an absent file. -/
theorem claim_C5_amended (env : DtsEnv) (fl : JStr → Option JStr → List JStr) (k : Nat)
    (st st₁ : DtsSt) (fileName s : JStr)
    (hflat : env.flat = some fl)
    (hvalid : isDtsRequest fileName = true)
    (hmiss : lookupKey fileName st.files = none)
    (hd1 : (str ".d.ts").isSuffixOf (pkgNameOf fileName) = false)
    (hd2 : (str "/node_modules").isSuffixOf (pkgNameOf fileName) = false)
    (hx1 : (str "@typescript/").isPrefixOf (pkgNameOf fileName) = false)
    (hx2 : (str "@types/typescript__").isPrefixOf (pkgNameOf fileName) = false)
    (hts : (str "@types/").isPrefixOf (pkgNameOf fileName) = true)
    (hread : readFile env k
      (str "/node_modules/" ++ origPkgOf (pkgNameOf fileName) ++ str "/package.json") st =
      (.ok (some s), st₁))
    (hs : s ≠ [])
    (hparse : env.parseJson s = none) :
    readFile env (k + 1) fileName st =
      (.error (), { st₁ with files := upsert fileName (.error ()) st₁.files }) ∧
    (readFile env (k + 1) fileName st).2.fetchLog = st₁.fetchLog := by
  have hfetch : fetchFile env (k + 1) fileName st = (.error (), st₁) := by
    rw [fetchFile, hflat]
    simp only [hd1, hd2, hx1, hx2, hts, Bool.or_self, Bool.false_or, Bool.false_eq_true,
      reduceIte]
    rw [readFile_as_memo, hread]
    simp only [truthy, isEmpty_false_of_ne hs, Bool.not_false, if_pos, Option.getD_some]
    rw [hparse]
  have hmain : readFile env (k + 1) fileName st =
      (.error (), { st₁ with files := upsert fileName (.error ()) st₁.files }) := by
    rw [← readFile_as_memo, readMemo]
    simp only [hvalid, if_pos, hmiss]
    rw [hfetch]
  exact ⟨hmain, by rw [hmain]⟩

/-- A host whose CDN serves malformed manifest content for package foo: the
text "not json" throws in JSON.parse, so the parse oracle maps it to none. -/
def malformedManifestEnv : DtsEnv where
  cdn := str "https://cdn.example/"
  versions := []
  flat := some (fun _ _ => [str "/package.json", str "/index.d.ts"])
  fetchText := fun u =>
    if u = str "https://cdn.example/foo/package.json" then some (str "not json")
    else none
  parseJson := fun _ => none

/-- C5 counterexample: with foo's manifest malformed, the read of the
corresponding types-shim file does not proceed to fetch the shim (the fetch
log holds only the manifest URL, not the shim's own CDN path) and the
resolution surfaces an error instead of a value — contradicting the claim
that malformed manifest content is treated as no redundancy signal with a
normal fetch and that no resolution failure surfaces as an error. -/
theorem claim_C5_cex :
    (readFile malformedManifestEnv 3 (str "/node_modules/@types/foo/index.d.ts")
      ⟨[], [], []⟩).1 = Except.error () ∧
    (readFile malformedManifestEnv 3 (str "/node_modules/@types/foo/index.d.ts")
      ⟨[], [], []⟩).2.fetchLog = [str "https://cdn.example/foo/package.json"] := by
  decide

/-- C5 witness for the amended theorem, at the malformed-manifest host. -/
theorem claim_C5_witness :
    readFile malformedManifestEnv 2 (str "/node_modules/@types/foo/index.d.ts") ⟨[], [], []⟩ =
      (Except.error (),
        { (readFile malformedManifestEnv 1 (str "/node_modules/foo/package.json")
            ⟨[], [], []⟩).2 with
          files := upsert (str "/node_modules/@types/foo/index.d.ts") (Except.error ())
            (readFile malformedManifestEnv 1 (str "/node_modules/foo/package.json")
              ⟨[], [], []⟩).2.files }) ∧
    (readFile malformedManifestEnv 2 (str "/node_modules/@types/foo/index.d.ts")
        ⟨[], [], []⟩).2.fetchLog =
      (readFile malformedManifestEnv 1 (str "/node_modules/foo/package.json")
        ⟨[], [], []⟩).2.fetchLog :=
  claim_C5_amended malformedManifestEnv (fun _ _ => [str "/package.json", str "/index.d.ts"]) 1
    ⟨[], [], []⟩
    (readFile malformedManifestEnv 1 (str "/node_modules/foo/package.json") ⟨[], [], []⟩).2
    (str "/node_modules/@types/foo/index.d.ts") (str "not json")
    rfl (by decide) (by decide) (by decide) (by decide) (by decide) (by decide)
    (by decide) (by decide) (by decide) rfl

/-- The invariant CdnDtsHost maintains between getVersion calls:
lastUpdateFilesSize never exceeds the map size (it is only ever set to past
sizes of a map that never shrinks), and when it equals the map size every
entry is settled. -/
def VInv (last : Nat) (files : List Bool) : Prop :=
  last ≤ files.length ∧ (last = files.length → ∀ b ∈ files, b = true)

instance instDecVInv (last : Nat) (files : List Bool) : Decidable (VInv last files) :=
  inferInstanceAs (Decidable (_ ∧ _))

instance instDecStepOK (files s : List Bool) : Decidable (StepOK files s) :=
  inferInstanceAs (Decidable (_ ∧ _))

instance instDecChainOK : (files : List Bool) → (steps : List (List Bool)) →
    Decidable (ChainOK files steps)
  | _, [] => .isTrue trivial
  | files, s :: rest =>
    haveI := instDecChainOK s rest
    inferInstanceAs (Decidable (StepOK files s ∧ ChainOK s rest))

theorem getVersionLoop_length_le (steps : List (List Bool)) (last : Nat) (files : List Bool)
    (v l' : Nat) (f' : List Bool)
    (h : getVersionLoop steps last files = some (v, l', f'))
    (hc : ChainOK files steps) : files.length ≤ v := by
  induction steps generalizing last files with
  | nil =>
    rw [getVersionLoop] at h
    by_cases he : files.length = last
    · simp [he] at h
      omega
    · simp [he] at h
  | cons s rest ih =>
    rw [getVersionLoop] at h
    by_cases he : files.length = last
    · simp [he] at h
      omega
    · simp only [he, if_false, if_neg he] at h
      have h1 : s.length ≤ v := ih _ _ h hc.2
      have h2 : files.length ≤ s.length := hc.1.1
      omega

theorem getVersionLoop_settled (steps : List (List Bool)) (last : Nat) (files : List Bool)
    (v l' : Nat) (f' : List Bool)
    (h : getVersionLoop steps last files = some (v, l', f'))
    (hc : ChainOK files steps) (hinv : VInv last files) :
    v = f'.length ∧ l' = v ∧ ∀ b ∈ f', b = true := by
  induction steps generalizing last files with
  | nil =>
    rw [getVersionLoop] at h
    by_cases he : files.length = last
    · simp [he] at h
      obtain ⟨hv, hl, hf⟩ := h
      subst hf
      exact ⟨by omega, by omega, hinv.2 (by omega)⟩
    · simp [he] at h
  | cons s rest ih =>
    rw [getVersionLoop] at h
    by_cases he : files.length = last
    · simp [he] at h
      obtain ⟨hv, hl, hf⟩ := h
      subst hf
      exact ⟨by omega, by omega, hinv.2 (by omega)⟩
    · simp only [he, if_false, if_neg he] at h
      refine ih _ _ h hc.2 ?_
      have hlen : files.length ≤ s.length := hc.1.1
      have htake : ∀ b ∈ s.take files.length, b = true := hc.1.2
      have h1 : last ≤ files.length := hinv.1
      constructor
      · by_cases hgt : files.length > last <;> simp [hgt] <;> omega
      · intro heq b hb
        by_cases hgt : files.length > last
        · simp only [hgt, if_pos] at heq
          have : s.take files.length = s := by
            rw [List.take_of_length_le]
            omega
          exact htake b (by rw [this]; exact hb)
        · simp only [hgt, if_neg, if_false] at heq
          have h1 : last ≤ files.length := hinv.1
          have : s.take files.length = s := by
            rw [List.take_of_length_le]
            omega
          exact htake b (by rw [this]; exact hb)

/-- C8. getVersion drains pending entries until the entry count stops
growing between two successive drains and returns the entry count, which at
that point is the settled count (every entry is settled on exit); across two
successive calls — with the cache only gaining entries in between — the
second call never returns a smaller value than the first. -/
theorem claim_C8 (steps₁ steps₂ : List (List Bool)) (last₁ last₂ last₃ v₁ v₂ : Nat)
    (files₁ f₁ f₂ ext : List Bool)
    (hinv : VInv last₁ files₁)
    (hc₁ : ChainOK files₁ steps₁)
    (h₁ : getVersionLoop steps₁ last₁ files₁ = some (v₁, last₂, f₁))
    (hc₂ : ChainOK (f₁ ++ ext) steps₂)
    (h₂ : getVersionLoop steps₂ last₂ (f₁ ++ ext) = some (v₂, last₃, f₂)) :
    v₁ = f₁.length ∧ (∀ b ∈ f₁, b = true) ∧ v₁ ≤ v₂ := by
  obtain ⟨hv₁, hl₂, hall⟩ := getVersionLoop_settled steps₁ last₁ files₁ v₁ last₂ f₁ h₁ hc₁ hinv
  refine ⟨hv₁, hall, ?_⟩
  have hle : (f₁ ++ ext).length ≤ v₂ := by
    refine getVersionLoop_length_le steps₂ last₂ (f₁ ++ ext) v₂ last₃ f₂ h₂ hc₂
  simp only [List.length_append] at hle
  omega

/-- C8 witness: a first call that drains one pending entry and returns 1,
then — after one more entry is registered — a second call that drains it and
returns 2 ≥ 1, with every entry settled at each return. -/
theorem claim_C8_witness :
    getVersionLoop [[true]] 0 [false] = some (1, 1, [true]) ∧
    (1 : Nat) = ([true] : List Bool).length ∧ (∀ b ∈ ([true] : List Bool), b = true) ∧
      (1 : Nat) ≤ 2 :=
  ⟨by decide,
   claim_C8 [[true]] [[true, true]] 0 1 2 1 2 [false] [true] [true, true] [false]
    (by decide) (by decide) (by decide) (by decide) (by decide)⟩

theorem getLast?_concat {β : Type} (l : List β) (a : β) : (l ++ [a]).getLast? = some a := by
  induction l with
  | nil => rfl
  | cons x xs ih => rw [List.cons_append, List.getLast?_cons, ih]; rfl

theorem loopGo_ok {ε α : Type} : ∀ (vs : List Nat) (ops : List (Except ε α)) (st : ProxySt)
    (oldV newV : Nat) (res : α) (execs : List (Nat × Except ε α)) (vreads : List Nat)
    (log : CallLog ε α) (st' : ProxySt) (r : α),
    loopGo st oldV newV res execs vreads vs ops = some (log, st') →
    (∃ pre, vreads = pre ++ [oldV, newV]) →
    (∃ i, execs.getLast? = some (i, Except.ok res)) →
    log.result = .ok r →
    ∃ i l v, log.execs.getLast? = some (i, Except.ok r) ∧ log.vreads = l ++ [v, v] := by
  intro vs
  induction vs with
  | nil =>
    intro ops st oldV newV res execs vreads log st' r h hv he hres
    rw [loopGo] at h
    by_cases heq : newV = oldV
    · simp only [heq, if_pos] at h
      obtain ⟨hlog, _⟩ := by simpa using h
      subst hlog
      simp only at hres
      obtain ⟨i, hi⟩ := he
      obtain ⟨pre, hpre⟩ := hv
      injection hres with hres
      exact ⟨i, pre, oldV, by simp [hi, ← hres], by simp [hpre, heq]⟩
    · simp only [heq, if_neg, if_false] at h
      match ops with
      | [] => simp at h
      | .error e :: ops' =>
        obtain ⟨hlog, _⟩ := by simpa using h
        subst hlog
        simp at hres
      | .ok r' :: ops' => simp at h
  | cons v vs' ih =>
    intro ops st oldV newV res execs vreads log st' r h hv he hres
    rw [loopGo] at h
    by_cases heq : newV = oldV
    · simp only [heq, if_pos] at h
      obtain ⟨hlog, _⟩ := by simpa using h
      subst hlog
      simp only at hres
      obtain ⟨i, hi⟩ := he
      obtain ⟨pre, hpre⟩ := hv
      injection hres with hres
      exact ⟨i, pre, oldV, by simp [hi, ← hres], by simp [hpre, heq]⟩
    · simp only [heq, if_neg, if_false] at h
      match ops with
      | [] => simp at h
      | .error e :: ops' =>
        obtain ⟨hlog, _⟩ := by simpa using h
        subst hlog
        simp at hres
      | .ok r' :: ops' =>
        refine ih ops' _ newV v r' _ _ log st' r h ?_ ?_ hres
        · obtain ⟨pre, hpre⟩ := hv
          exact ⟨pre ++ [oldV], by simp [hpre]⟩
        · exact ⟨_, getLast?_concat _ _⟩

/-- C1 amended theorem: for every wrapped call with a declaration host, the
value the call settles with is the one computed by the final execution of
the operation, and the world version read immediately before that execution
equals the version read immediately after it (the retry loop only exits on
two equal consecutive reads). -/
theorem claim_C1_amended {ε α : Type} (st₀ : ProxySt) (vs : List Nat)
    (ops : List (Except ε α)) (log : CallLog ε α) (st' : ProxySt) (r : α)
    (h : runCall st₀ vs ops = some (log, st')) (hres : log.result = .ok r) :
    ∃ i l v, log.execs.getLast? = some (i, Except.ok r) ∧ log.vreads = l ++ [v, v] := by
  rw [runCall.eq_def] at h
  match vs with
  | [] => simp at h
  | v₀ :: vs₁ =>
    match ops with
    | [] => simp at h
    | .error e :: ops₁ =>
      obtain ⟨hlog, _⟩ := by simpa using h
      subst hlog
      simp at hres
    | .ok r₁ :: ops₁ =>
      match vs₁ with
      | [] => simp at h
      | v₁ :: vs₂ =>
        simp only at h
        refine loopGo_ok vs₂ ops₁ _ v₀ v₁ r₁ _ _ log st' r h ⟨[], rfl⟩ ⟨_, rfl⟩ hres

/-- C1 amended witness: a call that reads version 0, executes once against
instance 0, reads version 0 again and returns that execution's value. -/
theorem claim_C1_amended_witness :
    ∃ i l v,
      (⟨[(0, Except.ok 7)], [0, 0], [], Except.ok 7⟩ : CallLog Unit Nat).execs.getLast? =
        some (i, Except.ok 7) ∧
      (⟨[(0, Except.ok 7)], [0, 0], [], Except.ok 7⟩ : CallLog Unit Nat).vreads = l ++ [v, v] :=
  claim_C1_amended ⟨0, 0, 1, [], 0⟩ [0, 0] [Except.ok 7]
    ⟨[(0, Except.ok 7)], [0, 0], [], Except.ok 7⟩ ⟨0, 0, 1, [], 0⟩ 7 rfl rfl

/-- C2 amended theorem: in the retry loop, on an iteration where the newly
read version differs from the previously observed one, the current instance
is superseded (appended to the pending-disposal set), a fresh instance is
constructed and made current and dtsVersion updated — all before the
operation is re-executed, the re-execution running against the fresh
instance — if and only if the new version also differs from the shared
dtsVersion; when the new version equals dtsVersion (another call already
rebuilt for it) the iteration re-executes against the existing current
instance and supersedes nothing. -/
theorem claim_C2_amended {ε α : Type} (st : ProxySt) (oldV newV : Nat) (res r' : α)
    (execs : List (Nat × Except ε α)) (vreads : List Nat) (v' : Nat) (vs : List Nat)
    (ops : List (Except ε α))
    (hne : newV ≠ oldV) (hmem : st.current ∉ st.toClear) :
    (newV ≠ st.dtsVersion →
      loopGo st oldV newV res execs vreads (v' :: vs) (.ok r' :: ops) =
        loopGo
          { st with dtsVersion := newV, toClear := st.toClear ++ [st.current],
                    current := st.nextId, nextId := st.nextId + 1 }
          newV v' r' (execs ++ [(st.nextId, .ok r')]) (vreads ++ [v']) vs ops) ∧
    (newV = st.dtsVersion →
      loopGo st oldV newV res execs vreads (v' :: vs) (.ok r' :: ops) =
        loopGo st newV v' r' (execs ++ [(st.current, .ok r')]) (vreads ++ [v']) vs ops) := by
  constructor
  · intro hd
    rw [loopGo]
    simp [hne, hd, addToClear, hmem]
  · intro hd
    rw [loopGo, if_neg hne, if_neg (show ¬(newV ≠ st.dtsVersion) by simp [hd])]

/-- C2 amended witness: a loop iteration at version 1 ≠ observed 0 and
≠ dtsVersion 0 with current instance 5 not pending disposal supersedes 5,
makes fresh instance 6 current, and re-executes against 6. -/
theorem claim_C2_amended_witness :
    loopGo (ε := Unit) ⟨0, 5, 6, [], 1⟩ 0 1 3 [] [] [2] [.ok 4] =
      loopGo ⟨1, 6, 7, [5], 1⟩ 1 2 4 [(6, .ok 4)] [2] [] [] :=
  (claim_C2_amended ⟨0, 5, 6, [], 1⟩ 0 1 3 4 [] [] 2 [] [] (by decide) (by simp)).1
    (by decide)

theorem dropLast_concat' {β : Type} (l : List β) (a : β) : (l ++ [a]).dropLast = l := by
  simp

theorem loopGo_error {ε α : Type} : ∀ (vs : List Nat) (ops : List (Except ε α)) (st : ProxySt)
    (oldV newV : Nat) (res : α) (execs : List (Nat × Except ε α)) (vreads : List Nat)
    (log : CallLog ε α) (st' : ProxySt) (e : ε),
    loopGo st oldV newV res execs vreads vs ops = some (log, st') →
    (∀ p ∈ execs, ∃ a, p.2 = Except.ok a) →
    Except.error e ∈ log.execs.map Prod.snd →
    log.result = .error e ∧
    (∃ i, log.execs.getLast? = some (i, Except.error e)) ∧
    (∀ p ∈ log.execs.dropLast, ∃ a, p.2 = Except.ok a) ∧
    st'.runningApis = st.runningApis - 1 ∧
    log.disposed = [] := by
  intro vs
  induction vs with
  | nil =>
    intro ops st oldV newV res execs vreads log st' e h hall he
    rw [loopGo] at h
    by_cases heq : newV = oldV
    · simp only [heq, if_pos] at h
      obtain ⟨hlog, _⟩ := by simpa using h
      subst hlog
      simp only [List.mem_map] at he
      obtain ⟨p, hp, hpe⟩ := he
      obtain ⟨a, ha⟩ := hall p hp
      rw [ha] at hpe
      exact absurd hpe (by simp)
    · simp only [heq, if_neg, if_false] at h
      match ops with
      | [] => simp at h
      | .error e' :: ops' =>
        obtain ⟨hlog, hst⟩ := by simpa using h
        subst hlog
        simp only [List.map_append, List.mem_append, List.mem_map] at he
        have hee : e = e' := by
          rcases he with he | he
          · obtain ⟨p, hp, hpe⟩ := he
            obtain ⟨a, ha⟩ := hall p hp
            rw [ha] at hpe
            exact absurd hpe (by simp)
          · simp at he
            exact he.symm
        subst hee
        have hra : st'.runningApis = st.runningApis - 1 := by
          rw [← hst]
          by_cases hd : newV = st.dtsVersion <;> simp [hd]
        exact ⟨rfl, ⟨_, getLast?_concat _ _⟩,
          by rw [dropLast_concat']; exact hall, hra, rfl⟩
      | .ok r' :: ops' => simp at h
  | cons v vs' ih =>
    intro ops st oldV newV res execs vreads log st' e h hall he
    rw [loopGo] at h
    by_cases heq : newV = oldV
    · simp only [heq, if_pos] at h
      obtain ⟨hlog, _⟩ := by simpa using h
      subst hlog
      simp only [List.mem_map] at he
      obtain ⟨p, hp, hpe⟩ := he
      obtain ⟨a, ha⟩ := hall p hp
      rw [ha] at hpe
      exact absurd hpe (by simp)
    · simp only [heq, if_neg, if_false] at h
      match ops with
      | [] => simp at h
      | .error e' :: ops' =>
        obtain ⟨hlog, hst⟩ := by simpa using h
        subst hlog
        simp only [List.map_append, List.mem_append, List.mem_map] at he
        have hee : e = e' := by
          rcases he with he | he
          · obtain ⟨p, hp, hpe⟩ := he
            obtain ⟨a, ha⟩ := hall p hp
            rw [ha] at hpe
            exact absurd hpe (by simp)
          · simp at he
            exact he.symm
        subst hee
        have hra : st'.runningApis = st.runningApis - 1 := by
          rw [← hst]
          by_cases hd : newV = st.dtsVersion <;> simp [hd]
        exact ⟨rfl, ⟨_, getLast?_concat _ _⟩,
          by rw [dropLast_concat']; exact hall, hra, rfl⟩
      | .ok r' :: ops' =>
        have hall' : ∀ p ∈ execs ++ [((if newV ≠ st.dtsVersion then
            { st with dtsVersion := newV, toClear := addToClear st.toClear st.current,
                      current := st.nextId, nextId := st.nextId + 1 }
          else st).current, (Except.ok r' : Except ε α))], ∃ a, p.2 = Except.ok a := by
          intro p hp
          rcases List.mem_append.1 hp with hp | hp
          · exact hall p hp
          · simp at hp
            exact ⟨r', by rw [hp]⟩
        have := ih ops' _ newV v r' _ _ log st' e h hall' he
        refine ⟨this.1, this.2.1, this.2.2.1, ?_, this.2.2.2.2⟩
        have hra := this.2.2.2.1
        by_cases hd : newV = st.dtsVersion
        · simpa [hd] using hra
        · simpa [hd] using hra

/-- C4. If an execution of the underlying operation rejects during a wrapped
call, the error is the value the call settles with, unmodified; that erroring
execution is the last one (no re-execution is attempted for the error); the
in-flight counter is decremented on this exit path (the call leaves it as it
found it); and the disposal block is skipped on this path. -/
theorem claim_C4 {ε α : Type} (st₀ : ProxySt) (vs : List Nat) (ops : List (Except ε α))
    (log : CallLog ε α) (st' : ProxySt) (e : ε)
    (h : runCall st₀ vs ops = some (log, st'))
    (he : Except.error e ∈ log.execs.map Prod.snd) :
    log.result = .error e ∧
    (∃ i, log.execs.getLast? = some (i, Except.error e)) ∧
    (∀ p ∈ log.execs.dropLast, ∃ a, p.2 = Except.ok a) ∧
    st'.runningApis = st₀.runningApis ∧
    log.disposed = [] := by
  rw [runCall.eq_def] at h
  match vs with
  | [] => simp at h
  | v₀ :: vs₁ =>
    match ops with
    | [] => simp at h
    | .error e' :: ops₁ =>
      obtain ⟨hlog, hst⟩ := by simpa using h
      subst hlog
      have hee : e = e' := by
        simpa using he
      subst hee
      refine ⟨rfl, ⟨_, rfl⟩, by simp, ?_, rfl⟩
      rw [← hst]
    | .ok r₁ :: ops₁ =>
      match vs₁ with
      | [] => simp at h
      | v₁ :: vs₂ =>
        simp only at h
        have := loopGo_error vs₂ ops₁ _ v₀ v₁ r₁ _ _ log st' e h
          (by intro p hp; simp at hp; exact ⟨r₁, by rw [hp]⟩) he
        refine ⟨this.1, this.2.1, this.2.2.1, ?_, this.2.2.2.2⟩
        have hra := this.2.2.2.1
        simpa using hra

/-- C4 witness: a call whose single execution rejects with error 3 settles
with that error, attempts no re-execution, leaves the in-flight counter as
it found it, and disposes nothing. -/
theorem claim_C4_witness :
    (⟨[(0, Except.error 3)], [0], [], Except.error 3⟩ : CallLog Nat Nat).result =
      Except.error 3 ∧
    (∃ i, (⟨[(0, Except.error 3)], [0], [], Except.error 3⟩ : CallLog Nat Nat).execs.getLast? =
      some (i, Except.error 3)) ∧
    (∀ p ∈ (⟨[(0, Except.error 3)], [0], [], Except.error 3⟩ :
        CallLog Nat Nat).execs.dropLast, ∃ a, p.2 = Except.ok a) ∧
    (⟨0, 0, 1, [], 0⟩ : ProxySt).runningApis = (⟨0, 0, 1, [], 0⟩ : ProxySt).runningApis ∧
    (⟨[(0, Except.error 3)], [0], [], Except.error 3⟩ : CallLog Nat Nat).disposed = [] :=
  claim_C4 ⟨0, 0, 1, [], 0⟩ [0] [Except.error 3]
    ⟨[(0, Except.error 3)], [0], [], Except.error 3⟩ ⟨0, 0, 1, [], 0⟩ 3 rfl (by simp)

/-- C10. A wrapped operation on a proxy constructed without a declaration
host invokes the underlying operation exactly once against the current
instance, returns its outcome unchanged, performs no version read, and
leaves the proxy state untouched — no instance is superseded, constructed or
disposed and the in-flight counter is not used: the proxy is observationally
the bare engine. -/
theorem claim_C10 {ε α : Type} (st₀ : ProxySt) (vs : List Nat) (o : Except ε α)
    (ops : List (Except ε α)) :
    wrappedCall false st₀ vs (o :: ops) =
      some ({ execs := [(st₀.current, o)], vreads := [], disposed := [], result := o }, st₀) :=
  rfl

/-- The disposal-safety invariant of the façade state: the current instance
is never pending disposal; pending-disposal ids are distinct, older than
nextId and never the current instance; every logged disposal happened at
in-flight counter zero, on an id that is not current, not pending disposal
again, and older than nextId; and no id is logged twice. -/
def Inv (cfg : Config) : Prop :=
  cfg.current < cfg.nextId ∧
  (∀ i ∈ cfg.toClear, i < cfg.nextId ∧ i ≠ cfg.current) ∧
  cfg.toClear.Nodup ∧
  (∀ e ∈ cfg.disposeLog, e.1 < cfg.nextId ∧ e.1 ∉ cfg.toClear ∧ e.1 ≠ cfg.current ∧
    e.2.1 = 0 ∧ e.1 ≠ e.2.2) ∧
  (cfg.disposeLog.map (fun e => e.1)).Nodup

theorem inv_init : Inv initConfig := by
  refine ⟨by simp [initConfig], ?_, ?_, ?_, ?_⟩ <;> simp [initConfig]

theorem inv_step (cfg : Config) (c : Choice) (h : Inv cfg) : Inv (stepFn cfg c) := by
  obtain ⟨h1, h2, h3, h4, h5⟩ := h
  have hcore : Inv (stepCore cfg c) := by
    cases c with
    | spawn => exact ⟨h1, h2, h3, h4, h5⟩
    | declResolve => exact ⟨h1, h2, h3, h4, h5⟩
    | startCall tid =>
      simp only [stepCore]
      cases hth : cfg.threads.get? tid with
      | none => exact ⟨h1, h2, h3, h4, h5⟩
      | some ph =>
        cases ph <;> exact ⟨h1, h2, h3, h4, h5⟩
    | resumeOp tid o =>
      simp only [stepCore]
      cases hth : cfg.threads.get? tid with
      | none => exact ⟨h1, h2, h3, h4, h5⟩
      | some ph =>
        cases ph <;> (try exact ⟨h1, h2, h3, h4, h5⟩)
        cases o <;> exact ⟨h1, h2, h3, h4, h5⟩
    | resumeVersion tid =>
      simp only [stepCore]
      cases hth : cfg.threads.get? tid with
      | none => exact ⟨h1, h2, h3, h4, h5⟩
      | some ph =>
        cases ph with
        | ready => exact ⟨h1, h2, h3, h4, h5⟩
        | awaitV0 s => exact ⟨h1, h2, h3, h4, h5⟩
        | awaitOp s oldV e => exact ⟨h1, h2, h3, h4, h5⟩
        | finished s r => exact ⟨h1, h2, h3, h4, h5⟩
        | awaitV1 s oldV e =>
          dsimp only
          by_cases hv : cfg.version = oldV
          · rw [if_pos hv]
            by_cases hg : cfg.runningApis - 1 = 0 ∧ cfg.toClear ≠ []
            · rw [if_pos hg]
              refine ⟨h1, by simp, by simp, ?_, ?_⟩
              · intro p hp
                simp only [List.mem_append, List.mem_map] at hp
                rcases hp with hp | ⟨i, hi, hpi⟩
                · obtain ⟨a1, a2, a3, a4, a5⟩ := h4 p hp
                  exact ⟨a1, by simp, a3, a4, a5⟩
                · obtain ⟨b1, b2⟩ := h2 i hi
                  rw [← hpi]
                  exact ⟨b1, by simp, b2, hg.1, b2⟩
              · show ((cfg.disposeLog ++
                    cfg.toClear.map (fun i => (i, cfg.runningApis - 1, cfg.current))).map
                    (fun p => p.1)).Nodup
                rw [List.map_append, List.map_map]
                refine List.Nodup.append h5 ?_ ?_
                · show (cfg.toClear.map _).Nodup
                  have : (fun p => p.1) ∘ (fun i => (i, cfg.runningApis - 1, cfg.current)) =
                      fun i : Nat => i := rfl
                  rw [this]
                  simpa using h3
                · intro a ha hb
                  simp only [List.mem_map, Function.comp] at ha hb
                  obtain ⟨p, hp, hpa⟩ := ha
                  obtain ⟨i, hi, hia⟩ := hb
                  obtain ⟨_, hnot, _, _, _⟩ := h4 p hp
                  apply hnot
                  have hip : i = p.1 := by rw [hia, hpa]
                  rw [← hip]
                  exact hi
            · rw [if_neg hg]
              exact ⟨h1, h2, h3, h4, h5⟩
          · rw [if_neg hv]
            by_cases hd : cfg.version ≠ cfg.dtsVersion
            · rw [if_pos hd]
              refine ⟨?_, ?_, ?_, ?_, ?_⟩ <;> dsimp only
              · omega
              · intro i hi
                rw [addToClear] at hi
                by_cases hmem : cfg.current ∈ cfg.toClear
                · rw [if_pos hmem] at hi
                  obtain ⟨b1, _⟩ := h2 i hi
                  exact ⟨by omega, by omega⟩
                · rw [if_neg hmem] at hi
                  rcases List.mem_append.1 hi with hi | hi
                  · obtain ⟨b1, _⟩ := h2 i hi
                    exact ⟨by omega, by omega⟩
                  · simp only [List.mem_singleton] at hi
                    subst hi
                    exact ⟨by omega, by omega⟩
              · show (addToClear cfg.toClear cfg.current).Nodup
                rw [addToClear]
                by_cases hmem : cfg.current ∈ cfg.toClear
                · rw [if_pos hmem]
                  exact h3
                · rw [if_neg hmem]
                  refine List.Nodup.append h3 (by simp) ?_
                  intro a ha hb
                  simp only [List.mem_singleton] at hb
                  subst hb
                  exact hmem ha
              · intro p hp
                obtain ⟨a1, a2, a3, a4, a5⟩ := h4 p hp
                refine ⟨by omega, ?_, by omega, a4, a5⟩
                show p.1 ∉ addToClear cfg.toClear cfg.current
                rw [addToClear]
                by_cases hmem : cfg.current ∈ cfg.toClear
                · rw [if_pos hmem]
                  exact a2
                · rw [if_neg hmem]
                  intro hcon
                  rcases List.mem_append.1 hcon with hcon | hcon
                  · exact a2 hcon
                  · simp only [List.mem_singleton] at hcon
                    exact a3 hcon
              · exact h5
            · rw [if_neg hd]
              exact ⟨h1, h2, h3, h4, h5⟩
  obtain ⟨a, b, c', d, e⟩ := hcore
  exact ⟨a, b, c', d, e⟩

theorem inv_runTrace (trace : List Choice) : Inv (runTrace trace) := by
  rw [runTrace]
  have hgen : ∀ cfg, Inv cfg → Inv (List.foldl stepFn cfg trace) := by
    induction trace with
    | nil => exact fun _ h => h
    | cons c tr ih => exact fun cfg h => ih _ (inv_step cfg c h)
  exact hgen initConfig inv_init

/-- C3. For every trace of spawned, started, resumed and erroring proxy
calls interleaved with declaration resolutions: every disposal in the log
happened with the in-flight counter at zero and on an instance that was not
the then-current instance (only superseded instances are disposed), and no
instance id appears twice in the disposal log (dispose is called at most
once per instance). -/
theorem claim_C3 (trace : List Choice) :
    (∀ e ∈ (runTrace trace).disposeLog, e.2.1 = 0 ∧ e.1 ≠ e.2.2) ∧
    ((runTrace trace).disposeLog.map (fun e => e.1)).Nodup := by
  obtain ⟨_, _, _, h4, h5⟩ := inv_runTrace trace
  exact ⟨fun e he => ⟨(h4 e he).2.2.2.1, (h4 e he).2.2.2.2⟩, h5⟩

/-- A schedule with a real disposal: one call observes a version change
caused by a declaration resolving during its execution, rebuilds, re-executes
and exits with the counter at zero, disposing the superseded instance 0. -/
def disposeTrace : List Choice :=
  [.spawn, .startCall 0, .resumeVersion 0, .resumeOp 0 (.ok 0), .declResolve,
   .resumeVersion 0, .resumeOp 0 (.ok 1), .resumeVersion 0]

/-- C3 witness: the disposal-safety conclusions at a concrete trace whose
disposal log is nonempty. -/
theorem claim_C3_witness :
    (∀ e ∈ (runTrace disposeTrace).disposeLog, e.2.1 = 0 ∧ e.1 ≠ e.2.2) ∧
    ((runTrace disposeTrace).disposeLog.map (fun e => e.1)).Nodup :=
  claim_C3 disposeTrace

/-- C10 witness: with no declaration host, a call returns the single
execution outcome with the proxy state untouched. -/
theorem claim_C10_witness :
    wrappedCall false (⟨0, 0, 1, [], 0⟩ : ProxySt) [] [(Except.ok 5 : Except Unit Nat)] =
      some ({ execs := [(0, Except.ok 5)], vreads := [], disposed := [],
              result := Except.ok 5 }, ⟨0, 0, 1, [], 0⟩) :=
  claim_C10 ⟨0, 0, 1, [], 0⟩ [] (Except.ok 5) []

/-- A reachable schedule in which call 0 is suspended in its first operation
execution while the three declaration fetches it triggered complete (times
5, 6, 7); call 1 then begins (time 8), reads the already-stable version 3,
executes against the still-current instance 0 — built at time 0, before the
declarations — reads version 3 again and returns that result. -/
def staleTrace : List Choice :=
  [.spawn, .spawn, .startCall 0, .resumeVersion 0,
   .declResolve, .declResolve, .declResolve,
   .startCall 1, .resumeVersion 1, .resumeOp 1 (.ok 0), .resumeVersion 1]

/-- C1 counterexample: after the staleTrace schedule, call 1 has finished
with a result computed by engine instance 0, which was built (time 0) before
declarations that resolved (times 5, 6, 7) strictly before the call began
(time 8) — so a result can be computed against an engine instance built
before the last declaration resolved strictly before the call began, and the
two claim phrasings are not equivalent: the loop exits because the version
was already stable, never rebuilding for changes that predate the call. -/
theorem claim_C1_cex :
    staleFinishedCall (runTrace staleTrace) = true ∧
    (runTrace staleTrace).threads.get? 1 = some (Phase.finished 8 (some 0)) ∧
    (runTrace staleTrace).decls = [5, 6, 7] ∧
    buildTimeOf 0 (runTrace staleTrace).builds = some 0 := by decide

/-- A reachable schedule in which calls 0 and 1 both observe version 0, a
declaration resolves while both are past their first execution, and call 0
loops first: it rebuilds (dtsVersion becomes 1, instance 1 becomes current,
instance 0 moves to the pending-disposal set).  Call 1 has not yet read its
new version. -/
def sharedRebuildTrace : List Choice :=
  [.spawn, .spawn, .startCall 0, .startCall 1, .resumeVersion 0, .resumeVersion 1,
   .resumeOp 0 (.ok 0), .declResolve, .resumeVersion 0, .resumeOp 1 (.ok 0)]

/-- C2 counterexample: call 1 now reads version 1, which differs from its
previously observed version 0, so its loop iterates and re-executes — but no
instance is marked superseded and no replacement is constructed on this
iteration (toClear, nextId, builds and current are all unchanged), because
the newly read version equals the shared dtsVersion for which call 0 already
rebuilt.  The claim that every differing-version iteration supersedes the
current instance and constructs a replacement is false on the code. -/
theorem claim_C2_cex :
    (runTrace sharedRebuildTrace).threads.get? 1 = some (Phase.awaitV1 4 0 0) ∧
    (runTrace sharedRebuildTrace).version = 1 ∧
    (runTrace sharedRebuildTrace).dtsVersion = 1 ∧
    (stepFn (runTrace sharedRebuildTrace) (.resumeVersion 1)).threads.get? 1 =
      some (Phase.awaitOp 4 1 1) ∧
    (stepFn (runTrace sharedRebuildTrace) (.resumeVersion 1)).nextId =
      (runTrace sharedRebuildTrace).nextId ∧
    (stepFn (runTrace sharedRebuildTrace) (.resumeVersion 1)).toClear =
      (runTrace sharedRebuildTrace).toClear ∧
    (stepFn (runTrace sharedRebuildTrace) (.resumeVersion 1)).builds =
      (runTrace sharedRebuildTrace).builds ∧
    (stepFn (runTrace sharedRebuildTrace) (.resumeVersion 1)).current =
      (runTrace sharedRebuildTrace).current := by decide

end Volar
